import Mathlib

/-!
Verification of the animal-conflict simulation
(`src/OriginalSimulation.py`, `src/GenerationalResult.py`).

Moves are the Python one-character strings, embedded as `Char` ('C', 'D',
'R'); scores are Python ints, embedded as `Int`; Python floats in the
evolutionary engine are embedded as exact rationals `ℚ`.  Randomness is
made explicit: the injury rolls of `play_contest` become a stream
`rolls : ℕ → Bool` (`rolls k` is the outcome of the k-th draw
`random.random() < P_INJURY` made during the contest), and the single
probe draw of Prober-Retaliator becomes a `Bool` parameter of the
instance.  All theorems quantify over every outcome of these draws.
-/

namespace AttritionSim

/-! ### Adjustable parameters (identical in both source files) -/

def MAX_MOVES : ℕ := 10
def P_INJURY : ℚ := 1/10
def TIME_BONUS_START : Int := 20
def TIME_BONUS_DECREMENT : Int := 2
def WIN_PAYOFF : Int := 60
def SERIOUS_INJURY : Int := -100
def SCRATCH : Int := -2
def PROBE_PROB : ℚ := 5/100
def MUTATION_RATE : ℚ := 1/100

/-! ### Strategy abstraction

A Python strategy object is a mutable state of type `σ` together with a
`choose_move` method; the embedded method returns the updated state and
the chosen move. `reset` is the state produced by `reset()`. -/

structure Strategy (σ : Type) where
  reset : σ
  choose_move : σ → List Char → List Char → σ × Char

/-! ### Contest resolver (`play_contest`, identical in both files)

`contest_loop` is the body of the `for moves in range(MAX_MOVES)` loop:
`a`, `b` are the two strategies' current states, `A_history`/`B_history`
and `A_score`/`B_score` the accumulated histories and scores, `k` the
index of the next injury roll to be drawn, `moves` the 0-indexed round
counter and `fuel` the number of rounds still to run
(round `r` of `play_contest` is `moves = r`, `fuel = MAX_MOVES - r`). -/

def contest_loop {σA σB : Type} (strategyA : Strategy σA) (strategyB : Strategy σB)
    (rolls : ℕ → Bool) (a : σA) (b : σB) (A_history B_history : List Char)
    (A_score B_score : Int) (k moves fuel : ℕ) : Int × Int :=
  match fuel with
  | 0 => (A_score, B_score)
  | Nat.succ fuel' =>
    let pA := strategyA.choose_move a A_history B_history
    let pB := strategyB.choose_move b B_history A_history
    let A_move := pA.2
    let B_move := pB.2
    let A_history' := A_history ++ [A_move]
    let B_history' := B_history ++ [B_move]
    let time_bonus : Int := TIME_BONUS_START - TIME_BONUS_DECREMENT * (moves : Int)
    if A_move = 'R' ∧ B_move = 'R' then (A_score, B_score)
    else if A_move = 'R' then (A_score, B_score + WIN_PAYOFF + max time_bonus 0)
    else if B_move = 'R' then (A_score + WIN_PAYOFF + max time_bonus 0, B_score)
    else
      if A_move = 'D' then
        if rolls k then
          (A_score + WIN_PAYOFF + max time_bonus 0, B_score + SERIOUS_INJURY)
        else
          if B_move = 'D' then
            if rolls (k+1) then
              (A_score + SERIOUS_INJURY, (B_score + SCRATCH) + WIN_PAYOFF + max time_bonus 0)
            else
              contest_loop strategyA strategyB rolls pA.1 pB.1 A_history' B_history'
                (A_score + SCRATCH) (B_score + SCRATCH) (k+2) (moves+1) fuel'
          else
            contest_loop strategyA strategyB rolls pA.1 pB.1 A_history' B_history'
              A_score (B_score + SCRATCH) (k+1) (moves+1) fuel'
      else
        if B_move = 'D' then
          if rolls k then
            (A_score + SERIOUS_INJURY, B_score + WIN_PAYOFF + max time_bonus 0)
          else
            contest_loop strategyA strategyB rolls pA.1 pB.1 A_history' B_history'
              (A_score + SCRATCH) B_score (k+1) (moves+1) fuel'
        else
          contest_loop strategyA strategyB rolls pA.1 pB.1 A_history' B_history'
            A_score B_score k (moves+1) fuel'

/-- Embedding of `play_contest(strategyA, strategyB)`. -/
def play_contest {σA σB : Type} (strategyA : Strategy σA) (strategyB : Strategy σB)
    (rolls : ℕ → Bool) : Int × Int :=
  contest_loop strategyA strategyB rolls strategyA.reset strategyB.reset [] [] 0 0 0 0 MAX_MOVES

/-- Stateless strategy that always returns the fixed move `m`
(used as a concrete test input; `constStrategy 'D'` is the source's `Hawk`). -/
def constStrategy (m : Char) : Strategy Unit where
  reset := ()
  choose_move s _ _ := (s, m)

/-- Embedding of `Hawk` (both files): always plays 'D', no state. -/
def Hawk : Strategy Unit := constStrategy 'D'

/-! ### The two `Mouse` variants

`MouseO` is `Mouse` from `OriginalSimulation.py` (the sticky flag is set
when the opponent's *most recent* move is 'D'); `MouseG` is `Mouse` from
`GenerationalResult.py` (the flag is set when 'D' occurs *anywhere* in
the opponent's history).  The state is `opponent_d_played`. -/

def MouseO : Strategy Bool where
  reset := false
  choose_move s my_history opp_history :=
    let s' := if opp_history ≠ [] ∧ opp_history.getLast? = some 'D' then true else s
    (s', if s' = true then 'R' else if my_history.length < MAX_MOVES then 'C' else 'R')

def MouseG : Strategy Bool where
  reset := false
  choose_move s my_history opp_history :=
    let s' := if 'D' ∈ opp_history then true else s
    (s', if my_history.length < MAX_MOVES ∧ s' = false then 'C' else 'R')

/-! ### The two `ProberRetaliator` variants

The single draw `random.random() < PROBE_PROB` that an instance can make
(it is only reachable while `my_history` is empty and `has_probed` is
false) is embedded as the parameter `probe_roll` of the instance; the
theorems below quantify over it or fix it to `true` ("has probed"). -/

/-- State of `ProberRetaliator` in `OriginalSimulation.py`:
`self.state`, `self.move_count`, `self.has_probed`. -/
structure PRStateO where
  state : Char
  move_count : ℕ
  has_probed : Bool
  deriving DecidableEq

/-- Embedding of `ProberRetaliator.choose_move` from `OriginalSimulation.py`. -/
def ProberRetaliatorO (probe_roll : Bool) : Strategy PRStateO where
  reset := ⟨'C', 0, false⟩
  choose_move s my_history opp_history :=
    let mc := s.move_count + 1
    if MAX_MOVES < mc then (⟨s.state, mc, s.has_probed⟩, 'R')
    else if s.has_probed = false ∧ my_history = [] ∧ probe_roll = true then
      (⟨'D', mc, true⟩, 'D')
    else
      let st :=
        if opp_history ≠ [] ∧ opp_history.getLast? = some 'D' then 'C'
        else if opp_history ≠ [] then
          (if s.has_probed = true ∧ s.state = 'D' then 'D' else 'C')
        else s.state
      (⟨st, mc, s.has_probed⟩, st)

/-- Embedding of `ProberRetaliator.choose_move` from `GenerationalResult.py`
(state is `(move_count, has_probed)`). -/
def ProberRetaliatorG (probe_roll : Bool) : Strategy (ℕ × Bool) where
  reset := (0, false)
  choose_move s my_history opp_history :=
    let mc := s.1 + 1
    if MAX_MOVES < mc then ((mc, s.2), 'R')
    else if s.2 = false ∧ my_history = [] ∧ probe_roll = true then ((mc, true), 'D')
    else if opp_history ≠ [] ∧ opp_history.getLast? = some 'D' then ((mc, s.2), 'C')
    else if s.2 = true then ((mc, s.2), 'D')
    else ((mc, s.2), 'C')

/-! ### Trace of a strategy under the contest calling discipline

During a contest a strategy's `choose_move` is called exactly once per
round; at round `n` each history holds the `n` moves of rounds
`0 … n-1`.  `runState S my opp n` is the instance state before the round-`n`
call and `runMove S my opp n` the move it returns at round `n`, when its own
moves follow `my` and the opponent's follow `opp`. -/

def histAt (f : ℕ → Char) (n : ℕ) : List Char := (List.range n).map f

def runState {σ : Type} (S : Strategy σ) (my opp : ℕ → Char) : ℕ → σ
  | 0 => S.reset
  | n+1 => (S.choose_move (runState S my opp n) (histAt my n) (histAt opp n)).1

def runMove {σ : Type} (S : Strategy σ) (my opp : ℕ → Char) (n : ℕ) : Char :=
  (S.choose_move (runState S my opp n) (histAt my n) (histAt opp n)).2

/-! ### Evolutionary engine (`evolutionary_simulation` in `GenerationalResult.py`)

Strategy classes are an abstract type `K` compared by identity
(`DecidableEq K`); `hawk : K` is the `Hawk` class.  The per-generation
frequency pipeline (aggregation totals → fitness transform →
normalization → mutation) is embedded exactly; the contest phase's
outputs (`strat_payoffs`, `strat_counts`) enter as arbitrary parameters,
so every theorem holds for every outcome of the contests' random draws.
Mutation randomness (`random.random() < MUTATION_RATE`,
`random.randrange(len(population))`) enters as `doMutate` and `mut_index`. -/

variable {K : Type}

/-- Fitness transform (line `fitness = max(avg_pay + 100, 0.01)`). -/
def fitness_of (avg_pay : ℚ) : ℚ := max (avg_pay + 100) (1/100)

/-- Average payoff of kind `s` (`strat_payoffs[s]/strat_counts[s]` if
`strat_counts[s] > 0`, else `0`). -/
def avg_pay (strat_payoffs : K → Int) (strat_counts : K → ℕ) (s : K) : ℚ :=
  if 0 < strat_counts s then (strat_payoffs s : ℚ) / (strat_counts s : ℚ) else 0

/-- The `new_population` list of `(strategy, fitness)` pairs. -/
def new_population (strategies : List K) (strat_payoffs : K → Int)
    (strat_counts : K → ℕ) : List (K × ℚ) :=
  strategies.map (fun s => (s, fitness_of (avg_pay strat_payoffs strat_counts s)))

/-- Running total `total_fitness`. -/
def total_fitness (np : List (K × ℚ)) : ℚ := (np.map Prod.snd).sum

/-- Normalization `population = [(s, f/total_fitness) for s, f in new_population]`. -/
def normalize_population (np : List (K × ℚ)) : List (K × ℚ) :=
  np.map (fun p => (p.1, p.2 / total_fitness np))

/-- Mutation transfer amount `min(freq*0.1, 0.05)`. -/
def mutation_amount (freq : ℚ) : ℚ := min (freq * (1/10)) (5/100)

/-- The `for i, (st, fr) in enumerate(population): if st is Hawk: … break`
loop: adds `amount` to the first entry whose kind is `hawk` (a no-op when no
entry is `hawk`). -/
def bump_hawk [DecidableEq K] (hawk : K) (amount : ℚ) : List (K × ℚ) → List (K × ℚ)
  | [] => []
  | p :: rest =>
    if p.1 = hawk then (p.1, p.2 + amount) :: rest
    else p :: bump_hawk hawk amount rest

/-- Body of the mutation step once triggered, for draw `mut_index`
(`random.randrange(len(population))` always yields an in-range index;
out-of-range indices are mapped to the identity). -/
def mutation_step [DecidableEq K] (hawk : K) (population : List (K × ℚ))
    (mut_index : ℕ) : List (K × ℚ) :=
  match population.get? mut_index with
  | none => population
  | some p =>
    if p.1 = hawk then population
    else
      bump_hawk hawk (mutation_amount p.2)
        (population.set mut_index (p.1, p.2 - mutation_amount p.2))

/-- One generation's frequency update: fitness transform, normalization and
(when `doMutate`) the mutation step. -/
def generation_update [DecidableEq K] (hawk : K) (strategies : List K)
    (strat_payoffs : K → Int) (strat_counts : K → ℕ)
    (doMutate : Bool) (mut_index : ℕ) : List (K × ℚ) :=
  let population := normalize_population (new_population strategies strat_payoffs strat_counts)
  if doMutate then mutation_step hawk population mut_index else population

/-- Frequency held by the first entry of kind `hawk` (0 when absent). -/
def first_hawk_freq [DecidableEq K] (hawk : K) : List (K × ℚ) → ℚ
  | [] => 0
  | p :: rest => if p.1 = hawk then p.2 else first_hawk_freq hawk rest

/-! ### Sampling phase (`individuals` construction) -/

/-- Python `int()` applied to a rational: truncation toward zero. -/
def pyInt (q : ℚ) : Int := if q < 0 then -((-q).floor) else q.floor

/-- The initial `individuals` list: for each `(strat, freq)` of the
population, `int(freq * population_size)` copies of the kind
(`[strat() for _ in range(count)]` is empty for a negative count). -/
def base_individuals (population : List (K × ℚ)) (population_size : ℕ) : List K :=
  population.flatMap (fun p => List.replicate (pyInt (p.2 * population_size)).toNat p.1)

/-- Cumulative-weight selection performed by `random.choices`: the chosen
index is the first `i` with `u < weights[0] + … + weights[i]`,
where `u = random.random() * total`. -/
def pickIndex : List ℚ → ℚ → ℕ
  | [], _ => 0
  | w :: ws, u => if u < w then 0 else pickIndex ws (u - w) + 1

/-- One draw of `random.choices(strategies, weights=…)[0]`; the index is
clamped to `len(strategies) - 1` as in `bisect(cum_weights, x, 0, hi)`
with `hi = n - 1`. -/
def choices_one [Inhabited K] (strategies : List K) (weights : List ℚ) (u : ℚ) : K :=
  strategies.getD (min (pickIndex weights u) (strategies.length - 1)) default

/-- The `while len(individuals) < population_size` fill loop; `us j` is the
uniform draw behind the `j`-th call of `random.choices`.  Each iteration
appends one weighted draw, so `population_size` steps of fuel suffice. -/
def fill_loop [Inhabited K] (strategies : List K) (weights : List ℚ) (us : ℕ → ℚ)
    (population_size : ℕ) : List K → ℕ → ℕ → List K
  | individuals, _, 0 => individuals
  | individuals, j, fuel+1 =>
    if individuals.length < population_size then
      fill_loop strategies weights us population_size
        (individuals ++ [choices_one strategies weights (us j)]) (j+1) fuel
    else individuals

/-- The `while len(individuals) > population_size: individuals.pop()` trim
loop (`pop()` drops the last element). -/
def trim_loop (population_size : ℕ) : List K → ℕ → List K
  | individuals, 0 => individuals
  | individuals, fuel+1 =>
    if population_size < individuals.length then
      trim_loop population_size individuals.dropLast fuel
    else individuals

/-- The full sampling phase: floor counts, weighted fill, trim. -/
def sample_individuals [Inhabited K] (strategies : List K) (population : List (K × ℚ))
    (us : ℕ → ℚ) (population_size : ℕ) : List K :=
  let base := base_individuals population population_size
  let filled := fill_loop strategies (population.map Prod.snd) us population_size
    base 0 population_size
  trim_loop population_size filled filled.length

/-! ### Contest phase pairing (`for i in range(0, population_size, 2)`)

List indexing is embedded fallibly: an index that Python would raise
`IndexError` on yields `none`.  `outcomes i` stands for the payoff pair
`play_contest(individuals[i], individuals[i+1])` of the pair starting at
`i` (the contests' own randomness is arbitrary). -/

def contest_pairs (outcomes : ℕ → Int × Int) (individuals : List K)
    (population_size : ℕ) : List Int → ℕ → ℕ → Option (List Int)
  | payoffs, _, 0 => some payoffs
  | payoffs, i, fuel+1 =>
    if i < population_size then
      match individuals.get? i, individuals.get? (i+1),
            payoffs.get? i, payoffs.get? (i+1) with
      | some _, some _, some pi, some pj =>
        contest_pairs outcomes individuals population_size
          ((payoffs.set i (pi + (outcomes i).1)).set (i+1) (pj + (outcomes i).2))
          (i+2) fuel
      | _, _, _, _ => none
    else some payoffs

/-- The contest phase: `payoffs = [0]*population_size` then the pairing loop. -/
def contest_phase (outcomes : ℕ → Int × Int) (individuals : List K)
    (population_size : ℕ) : Option (List Int) :=
  contest_pairs outcomes individuals population_size
    (List.replicate population_size 0) 0 population_size

/-! ## Theorems about the contest resolver -/

/-- Claim C1: in `play_contest`, if in round `r` (0-indexed, `moves = r`,
`fuel = MAX_MOVES - r`) exactly one side plays Retreat, the contest ends
immediately in that round: the non-retreating side's final score is its
accumulated score plus `WIN_PAYOFF` plus
`max(0, TIME_BONUS_START - TIME_BONUS_DECREMENT * r)`, the retreating
side's final score is its accumulated score unchanged, and the awarded
bonus is never negative. -/
theorem solitary_retreat_award {σA σB : Type} (strategyA : Strategy σA) (strategyB : Strategy σB)
    (rolls : ℕ → Bool) (a : σA) (b : σB) (A_history B_history : List Char)
    (A_score B_score : Int) (k moves fuel : ℕ) :
    ((strategyA.choose_move a A_history B_history).2 = 'R' →
      (strategyB.choose_move b B_history A_history).2 ≠ 'R' →
      contest_loop strategyA strategyB rolls a b A_history B_history A_score B_score k moves (fuel+1)
        = (A_score, B_score + WIN_PAYOFF +
            max (TIME_BONUS_START - TIME_BONUS_DECREMENT * (moves : Int)) 0))
    ∧ ((strategyB.choose_move b B_history A_history).2 = 'R' →
      (strategyA.choose_move a A_history B_history).2 ≠ 'R' →
      contest_loop strategyA strategyB rolls a b A_history B_history A_score B_score k moves (fuel+1)
        = (A_score + WIN_PAYOFF +
            max (TIME_BONUS_START - TIME_BONUS_DECREMENT * (moves : Int)) 0, B_score))
    ∧ 0 ≤ max (TIME_BONUS_START - TIME_BONUS_DECREMENT * (moves : Int)) 0 := by
  refine ⟨?_, ?_, le_max_right _ _⟩
  · intro hA hB
    simp only [contest_loop]
    rw [if_neg (fun h => hB h.2), if_pos hA]
  · intro hB hA
    simp only [contest_loop]
    rw [if_neg (fun h => hA h.1), if_neg hA, if_pos hB]

/-- Witness for C1: an always-Retreat strategy against an always-Cooperate
strategy, in round 3 with accumulated scores 5 and 7, in both seats. -/
theorem solitary_retreat_award_witness :
    contest_loop (constStrategy 'R') (constStrategy 'C') (fun _ => false) () () [] []
        5 7 0 3 (6+1)
      = (5, 7 + WIN_PAYOFF + max (TIME_BONUS_START - TIME_BONUS_DECREMENT * ((3:ℕ) : Int)) 0)
    ∧ contest_loop (constStrategy 'C') (constStrategy 'R') (fun _ => false) () () [] []
        5 7 0 3 (6+1)
      = (5 + WIN_PAYOFF + max (TIME_BONUS_START - TIME_BONUS_DECREMENT * ((3:ℕ) : Int)) 0, 7) :=
  ⟨(solitary_retreat_award (constStrategy 'R') (constStrategy 'C') (fun _ => false) () () [] []
      5 7 0 3 6).1 rfl (by decide),
   (solitary_retreat_award (constStrategy 'C') (constStrategy 'R') (fun _ => false) () () [] []
      5 7 0 3 6).2.1 rfl (by decide)⟩

/-- Claim C2 (amended): an injury roll that succeeds in round `r` ends the
contest at once, the injured side taking `SERIOUS_INJURY` exactly once on
its score at entry to the round; the acting side gains
`WIN_PAYOFF + max(0, TIME_BONUS_START - TIME_BONUS_DECREMENT * r)` on top of
its score at the moment of its roll — which, when the acting side is B and
A also played 'D' in the same round with a failed roll, already includes
the `SCRATCH` from A's act.  (The claim's unqualified "score at entry to
round r plus WIN_PAYOFF plus bonus" for the acting side fails in exactly
that case; see the counterexample.) -/
theorem injury_outcomes {σA σB : Type} (strategyA : Strategy σA) (strategyB : Strategy σB)
    (rolls : ℕ → Bool) (a : σA) (b : σB) (A_history B_history : List Char)
    (A_score B_score : Int) (k moves fuel : ℕ) :
    ((strategyA.choose_move a A_history B_history).2 = 'D' →
      (strategyB.choose_move b B_history A_history).2 ≠ 'R' →
      rolls k = true →
      contest_loop strategyA strategyB rolls a b A_history B_history A_score B_score k moves (fuel+1)
        = (A_score + WIN_PAYOFF + max (TIME_BONUS_START - TIME_BONUS_DECREMENT * (moves : Int)) 0,
           B_score + SERIOUS_INJURY))
    ∧ ((strategyA.choose_move a A_history B_history).2 = 'D' →
      (strategyB.choose_move b B_history A_history).2 = 'D' →
      rolls k = false → rolls (k+1) = true →
      contest_loop strategyA strategyB rolls a b A_history B_history A_score B_score k moves (fuel+1)
        = (A_score + SERIOUS_INJURY,
           B_score + SCRATCH + WIN_PAYOFF +
             max (TIME_BONUS_START - TIME_BONUS_DECREMENT * (moves : Int)) 0))
    ∧ ((strategyA.choose_move a A_history B_history).2 ≠ 'R' →
      (strategyA.choose_move a A_history B_history).2 ≠ 'D' →
      (strategyB.choose_move b B_history A_history).2 = 'D' →
      rolls k = true →
      contest_loop strategyA strategyB rolls a b A_history B_history A_score B_score k moves (fuel+1)
        = (A_score + SERIOUS_INJURY,
           B_score + WIN_PAYOFF +
             max (TIME_BONUS_START - TIME_BONUS_DECREMENT * (moves : Int)) 0)) := by
  refine ⟨?_, ?_, ?_⟩
  · intro hA hB hk
    simp only [contest_loop]
    rw [hA, if_neg (fun h => absurd h.1 (by decide)), if_neg (by decide), if_neg hB,
      if_pos rfl, if_pos hk]
  · intro hA hB hk hk1
    simp only [contest_loop]
    rw [hA, hB, if_neg (fun h => absurd h.1 (by decide)), if_neg (by decide), if_neg (by decide),
      if_pos rfl, hk, if_neg (by decide), if_pos rfl, if_pos hk1]
  · intro hAR hAD hB hk
    simp only [contest_loop]
    rw [hB, if_neg (fun h => hAR h.1), if_neg hAR, if_neg (by decide), if_neg hAD,
      if_pos rfl, if_pos hk]

/-- Counterexample to C2 as stated: Hawk vs Hawk, A's round-0 roll fails
(B absorbs `SCRATCH = -2`), B's roll succeeds.  The acting side B ends with
`78 = -2 + 60 + 20`, not its round-entry score `0` plus
`WIN_PAYOFF + max(0, TIME_BONUS_START) = 80`. -/
theorem injury_outcomes_counterexample :
    play_contest Hawk Hawk (fun k => decide (k = 1)) = (-100, 78)
    ∧ (78 : Int) ≠ 0 + WIN_PAYOFF + max (TIME_BONUS_START - TIME_BONUS_DECREMENT * 0) 0 := by
  decide

/-- Witness for C2 (amended): all three injury cases at concrete inputs. -/
theorem injury_outcomes_witness :
    contest_loop Hawk Hawk (fun _ => true) () () [] [] 0 0 0 0 (9+1)
      = (0 + WIN_PAYOFF + max (TIME_BONUS_START - TIME_BONUS_DECREMENT * ((0:ℕ) : Int)) 0,
         0 + SERIOUS_INJURY)
    ∧ contest_loop Hawk Hawk (fun k => decide (k = 1)) () () [] [] 0 0 0 0 (9+1)
      = (0 + SERIOUS_INJURY,
         0 + SCRATCH + WIN_PAYOFF + max (TIME_BONUS_START - TIME_BONUS_DECREMENT * ((0:ℕ) : Int)) 0)
    ∧ contest_loop (constStrategy 'C') Hawk (fun _ => true) () () [] [] 0 0 0 0 (9+1)
      = (0 + SERIOUS_INJURY,
         0 + WIN_PAYOFF + max (TIME_BONUS_START - TIME_BONUS_DECREMENT * ((0:ℕ) : Int)) 0) :=
  ⟨(injury_outcomes Hawk Hawk (fun _ => true) () () [] [] 0 0 0 0 9).1 rfl (by decide) rfl,
   (injury_outcomes Hawk Hawk (fun k => decide (k = 1)) () () [] [] 0 0 0 0 9).2.1 rfl rfl
     (by decide) (by decide),
   (injury_outcomes (constStrategy 'C') Hawk (fun _ => true) () () [] [] 0 0 0 0 9).2.2
     (by decide) (by decide) rfl rfl⟩

/-- Claim C3: when both sides play 'D' in the same round, A's injury roll
(the draw at the current index `k`) is evaluated first, and if it succeeds
the contest returns at once with A the winner and B injured — for *every*
continuation of the roll stream, so B's own dangerous-act roll (which would
be the draw at `k+1`) is never consulted; in particular any two roll streams
that agree (and succeed) at `k` give the same result. -/
theorem dangerous_order_A_first {σA σB : Type} (strategyA : Strategy σA) (strategyB : Strategy σB)
    (a : σA) (b : σB) (A_history B_history : List Char)
    (A_score B_score : Int) (k moves fuel : ℕ)
    (hA : (strategyA.choose_move a A_history B_history).2 = 'D')
    (hB : (strategyB.choose_move b B_history A_history).2 = 'D') :
    (∀ rolls : ℕ → Bool, rolls k = true →
      contest_loop strategyA strategyB rolls a b A_history B_history A_score B_score k moves (fuel+1)
        = (A_score + WIN_PAYOFF + max (TIME_BONUS_START - TIME_BONUS_DECREMENT * (moves : Int)) 0,
           B_score + SERIOUS_INJURY))
    ∧ (∀ rolls1 rolls2 : ℕ → Bool, rolls1 k = true → rolls2 k = true →
      contest_loop strategyA strategyB rolls1 a b A_history B_history A_score B_score k moves
          (fuel+1)
        = contest_loop strategyA strategyB rolls2 a b A_history B_history A_score B_score k moves
            (fuel+1)) := by
  have main : ∀ rolls : ℕ → Bool, rolls k = true →
      contest_loop strategyA strategyB rolls a b A_history B_history A_score B_score k moves (fuel+1)
        = (A_score + WIN_PAYOFF + max (TIME_BONUS_START - TIME_BONUS_DECREMENT * (moves : Int)) 0,
           B_score + SERIOUS_INJURY) := by
    intro rolls hk
    simp only [contest_loop]
    rw [hA, hB, if_neg (fun h => absurd h.1 (by decide)), if_neg (by decide), if_neg (by decide),
      if_pos rfl, if_pos hk]
  exact ⟨main, fun rolls1 rolls2 h1 h2 => (main rolls1 h1).trans (main rolls2 h2).symm⟩

/-- Witness for C3: Hawk vs Hawk in round 2, roll index 3, two different
roll streams that both succeed at index 3. -/
theorem dangerous_order_A_first_witness :
    contest_loop Hawk Hawk (fun _ => true) () () [] [] 1 2 3 2 (7+1)
      = (1 + WIN_PAYOFF + max (TIME_BONUS_START - TIME_BONUS_DECREMENT * ((2:ℕ) : Int)) 0,
         2 + SERIOUS_INJURY)
    ∧ contest_loop Hawk Hawk (fun _ => true) () () [] [] 1 2 3 2 (7+1)
      = contest_loop Hawk Hawk (fun k => decide (k = 3)) () () [] [] 1 2 3 2 (7+1) :=
  ⟨(dangerous_order_A_first Hawk Hawk () () [] [] 1 2 3 2 7 rfl rfl).1 _ rfl,
   (dangerous_order_A_first Hawk Hawk () () [] [] 1 2 3 2 7 rfl rfl).2 _ _ rfl (by decide)⟩

/-- Claim C4 (amended): `play_contest` performs no validation of the moves
returned by `choose_move`.  A move outside the legal alphabet
{'C','D','R'} raises no error: the round simply continues with the move
appended to the history and no score change, exactly as if 'C' (any move
that is neither 'R' nor 'D') had been played.  The embedded resolver is a
total function — the source has no failure path of its own. -/
theorem illegal_move_continues {σA σB : Type} (strategyA : Strategy σA) (strategyB : Strategy σB)
    (rolls : ℕ → Bool) (a : σA) (b : σB) (A_history B_history : List Char)
    (A_score B_score : Int) (k moves fuel : ℕ)
    (hAR : (strategyA.choose_move a A_history B_history).2 ≠ 'R')
    (hAD : (strategyA.choose_move a A_history B_history).2 ≠ 'D')
    (hBR : (strategyB.choose_move b B_history A_history).2 ≠ 'R')
    (hBD : (strategyB.choose_move b B_history A_history).2 ≠ 'D') :
    contest_loop strategyA strategyB rolls a b A_history B_history A_score B_score k moves (fuel+1)
      = contest_loop strategyA strategyB rolls
          (strategyA.choose_move a A_history B_history).1
          (strategyB.choose_move b B_history A_history).1
          (A_history ++ [(strategyA.choose_move a A_history B_history).2])
          (B_history ++ [(strategyB.choose_move b B_history A_history).2])
          A_score B_score k (moves+1) fuel := by
  simp only [contest_loop]
  rw [if_neg (fun h => hAR h.1), if_neg hAR, if_neg hBR, if_neg hAD, if_neg hBD]

/-- Counterexample to C4 as stated: a strategy that always returns the
illegal move 'X' produces a contest that completes silently with the same
result as an all-Cooperate contest — no failure, no error. -/
theorem illegal_move_continues_counterexample :
    play_contest (constStrategy 'X') (constStrategy 'C') (fun _ => false) = (0, 0)
    ∧ play_contest (constStrategy 'X') (constStrategy 'C') (fun _ => false)
        = play_contest (constStrategy 'C') (constStrategy 'C') (fun _ => false) := by
  decide

/-- Witness for C4 (amended): one round with the illegal move 'X' against
'C' steps to the next round unchanged apart from the histories. -/
theorem illegal_move_continues_witness :
    contest_loop (constStrategy 'X') (constStrategy 'C') (fun _ => false) () () [] []
        0 0 0 0 (9+1)
      = contest_loop (constStrategy 'X') (constStrategy 'C') (fun _ => false) () ()
          ([] ++ ['X']) ([] ++ ['C']) 0 0 0 1 9 :=
  illegal_move_continues (constStrategy 'X') (constStrategy 'C') (fun _ => false) () () [] []
    0 0 0 0 9 (by decide) (by decide) (by decide) (by decide)

/-! ## Strategy traces: history facts -/

theorem histAt_succ (f : ℕ → Char) (n : ℕ) : histAt f (n+1) = histAt f n ++ [f n] := by
  simp [histAt, List.range_succ]

theorem histAt_getLast (f : ℕ → Char) (n : ℕ) : (histAt f (n+1)).getLast? = some (f n) := by
  rw [histAt_succ]
  exact List.getLast?_concat _

theorem histAt_length (f : ℕ → Char) (n : ℕ) : (histAt f n).length = n := by
  simp [histAt]

theorem mem_histAt_succ (f : ℕ → Char) (n : ℕ) :
    'D' ∈ histAt f (n+1) ↔ 'D' ∈ histAt f n ∨ f n = 'D' := by
  rw [histAt_succ]
  simp [eq_comm]

/-! ## The two Mouse variants agree (claim C10) -/

theorem mouseO_state (my opp : ℕ → Char) (n : ℕ) :
    runState MouseO my opp (n+1) = decide ('D' ∈ histAt opp n) := by
  induction n with
  | zero => simp [runState, MouseO, histAt]
  | succ n ih =>
    show (MouseO.choose_move (runState MouseO my opp (n+1)) _ _).1 = _
    rw [ih]
    show (if histAt opp (n+1) ≠ [] ∧ (histAt opp (n+1)).getLast? = some 'D' then true
          else decide ('D' ∈ histAt opp n)) = _
    rw [histAt_getLast]
    by_cases h : opp n = 'D'
    · rw [if_pos ⟨by simp [histAt_succ], by rw [h]⟩]
      simp [mem_histAt_succ, h]
    · rw [if_neg (fun hc => h (Option.some.inj hc.2))]
      simp [mem_histAt_succ, h]

theorem mouseG_state (my opp : ℕ → Char) (n : ℕ) :
    runState MouseG my opp (n+1) = decide ('D' ∈ histAt opp n) := by
  induction n with
  | zero => simp [runState, MouseG, histAt]
  | succ n ih =>
    show (MouseG.choose_move (runState MouseG my opp (n+1)) _ _).1 = _
    rw [ih]
    show (if 'D' ∈ histAt opp (n+1) then true else decide ('D' ∈ histAt opp n)) = _
    by_cases h : 'D' ∈ histAt opp (n+1)
    · simp [h]
    · rw [if_neg h]
      simp [h]
      exact fun hm => h ((mem_histAt_succ opp n).2 (Or.inl hm))

theorem mouseO_move_eq (s : Bool) (myh opph : List Char) :
    (MouseO.choose_move s myh opph).2
      = (if (MouseO.choose_move s myh opph).1 = true then 'R'
         else if myh.length < MAX_MOVES then 'C' else 'R') := rfl

theorem mouseG_move_eq (s : Bool) (myh opph : List Char) :
    (MouseG.choose_move s myh opph).2
      = (if myh.length < MAX_MOVES ∧ (MouseG.choose_move s myh opph).1 = false then 'C'
         else 'R') := rfl

/-- Claim C10: the `Mouse` of `OriginalSimulation.py` (flag set when the
opponent's most recent move is 'D') and the `Mouse` of
`GenerationalResult.py` (flag set when 'D' occurs anywhere in the
opponent's history) are behaviorally equivalent under the contest calling
discipline: starting from reset, with `choose_move` called once per round
on histories growing by one move per side per round, they return identical
moves at every round (for every pair of move sequences `my`, `opp`). -/
theorem mouse_variants_equivalent (my opp : ℕ → Char) (n : ℕ) :
    runMove MouseO my opp n = runMove MouseG my opp n := by
  cases n with
  | zero => rfl
  | succ n =>
    show (MouseO.choose_move (runState MouseO my opp (n+1)) (histAt my (n+1))
            (histAt opp (n+1))).2
       = (MouseG.choose_move (runState MouseG my opp (n+1)) (histAt my (n+1))
            (histAt opp (n+1))).2
    rw [mouseO_move_eq, mouseG_move_eq]
    have e1 : (MouseO.choose_move (runState MouseO my opp (n+1)) (histAt my (n+1))
        (histAt opp (n+1))).1 = runState MouseO my opp (n+2) := rfl
    have e2 : (MouseG.choose_move (runState MouseG my opp (n+1)) (histAt my (n+1))
        (histAt opp (n+1))).1 = runState MouseG my opp (n+2) := rfl
    rw [e1, e2, mouseO_state, mouseG_state, histAt_length]
    by_cases hd : 'D' ∈ histAt opp (n+1) <;> by_cases hl : n + 1 < MAX_MOVES <;> simp [hd, hl]

/-! ## Prober-Retaliator after a probe (claim C8) -/

theorem prG_state (my opp : ℕ → Char) (n : ℕ) :
    runState (ProberRetaliatorG true) my opp (n+1) = (n+1, true) := by
  induction n with
  | zero => rfl
  | succ n ih =>
    show ((ProberRetaliatorG true).choose_move (runState (ProberRetaliatorG true) my opp (n+1))
        (histAt my (n+1)) (histAt opp (n+1))).1 = _
    rw [ih]
    simp only [ProberRetaliatorG]
    split_ifs <;> rfl

theorem prG_move (my opp : ℕ → Char) (n : ℕ) (h : n + 1 < MAX_MOVES) :
    runMove (ProberRetaliatorG true) my opp (n+1) = if opp n = 'D' then 'C' else 'D' := by
  show ((ProberRetaliatorG true).choose_move (runState (ProberRetaliatorG true) my opp (n+1))
      (histAt my (n+1)) (histAt opp (n+1))).2 = _
  rw [prG_state]
  simp only [ProberRetaliatorG]
  rw [if_neg (by simp [MAX_MOVES] at h ⊢; omega), if_neg (by simp), histAt_getLast]
  by_cases hd : opp n = 'D'
  · rw [if_pos ⟨by simp [histAt_succ], by rw [hd]⟩, if_pos hd]
  · rw [if_neg (fun hc => hd (Option.some.inj hc.2)), if_pos trivial, if_neg hd]

theorem prO_state (my opp : ℕ → Char) (n : ℕ) (h : n + 1 ≤ MAX_MOVES) :
    runState (ProberRetaliatorO true) my opp (n+1)
      = ⟨if 'D' ∈ histAt opp n then 'C' else 'D', n+1, true⟩ := by
  revert h
  induction n with
  | zero => intro h; rfl
  | succ n ih =>
    intro h
    show ((ProberRetaliatorO true).choose_move (runState (ProberRetaliatorO true) my opp (n+1))
        (histAt my (n+1)) (histAt opp (n+1))).1 = _
    rw [ih (by omega)]
    simp only [ProberRetaliatorO]
    rw [if_neg (by simp [MAX_MOVES] at h ⊢; omega), if_neg (by simp), histAt_getLast]
    by_cases hd : opp n = 'D'
    · rw [if_pos ⟨by simp [histAt_succ], by rw [hd]⟩]
      have : 'D' ∈ histAt opp (n+1) := (mem_histAt_succ opp n).2 (Or.inr hd)
      simp [this]
    · rw [if_neg (fun hc => hd (Option.some.inj hc.2)), if_pos (by simp [histAt_succ])]
      by_cases hm : 'D' ∈ histAt opp n
      · have hm1 : 'D' ∈ histAt opp (n+1) := (mem_histAt_succ opp n).2 (Or.inl hm)
        simp [hm, hm1]
      · have hm1 : 'D' ∉ histAt opp (n+1) := by
          rw [mem_histAt_succ]
          simp [hm, hd]
        simp [hm, hm1]

theorem prO_move (my opp : ℕ → Char) (n : ℕ) (h : n + 1 < MAX_MOVES) :
    runMove (ProberRetaliatorO true) my opp (n+1)
      = if 'D' ∈ histAt opp (n+1) then 'C' else 'D' := by
  show ((ProberRetaliatorO true).choose_move (runState (ProberRetaliatorO true) my opp (n+1))
      (histAt my (n+1)) (histAt opp (n+1))).2 = _
  rw [prO_state my opp n (by omega)]
  simp only [ProberRetaliatorO]
  rw [if_neg (by simp [MAX_MOVES] at h ⊢; omega), if_neg (by simp), histAt_getLast]
  by_cases hd : opp n = 'D'
  · rw [if_pos ⟨by simp [histAt_succ], by rw [hd]⟩]
    have : 'D' ∈ histAt opp (n+1) := (mem_histAt_succ opp n).2 (Or.inr hd)
    simp [this]
  · rw [if_neg (fun hc => hd (Option.some.inj hc.2)), if_pos (by simp [histAt_succ])]
    by_cases hm : 'D' ∈ histAt opp n
    · have hm1 : 'D' ∈ histAt opp (n+1) := (mem_histAt_succ opp n).2 (Or.inl hm)
      simp [hm, hm1]
    · have hm1 : 'D' ∉ histAt opp (n+1) := by
        rw [mem_histAt_succ]
        simp [hm, hd]
      simp [hm, hm1]

/-- Claim C8 (amended): with the probe draw succeeding, both
Prober-Retaliator variants play 'D' on the first move (the probe); on every
subsequent round within the round cap, the `GenerationalResult.py` variant
plays 'C' when the opponent's most recent move was 'D' and 'D' whenever it
was not — the claim as stated.  The `OriginalSimulation.py` variant instead
plays 'C' when the opponent's most recent move was 'D', but otherwise plays
'D' only while the opponent has never yet played 'D'; once the opponent has
played 'D' anywhere in its history it plays 'C' from then on (within the
cap), so the claim's "plays Dangerous-act whenever the opponent's most
recent move was not Dangerous-act" fails for it (see the counterexample). -/
theorem prober_retaliator_after_probe (my opp : ℕ → Char) (n : ℕ) (h : n + 1 < MAX_MOVES) :
    runMove (ProberRetaliatorG true) my opp 0 = 'D'
    ∧ runMove (ProberRetaliatorO true) my opp 0 = 'D'
    ∧ runMove (ProberRetaliatorG true) my opp (n+1) = (if opp n = 'D' then 'C' else 'D')
    ∧ runMove (ProberRetaliatorO true) my opp (n+1)
        = (if 'D' ∈ histAt opp (n+1) then 'C' else 'D') :=
  ⟨rfl, rfl, prG_move my opp n h, prO_move my opp n h⟩

/-- Counterexample to C8 as stated: against an opponent that plays 'D' in
round 0 and 'C' afterwards, the `OriginalSimulation.py` Prober-Retaliator
probes ('D' at round 0) but plays 'C' in round 2 — within the round cap and
with the opponent's most recent move (round 1, 'C') not Dangerous — where
the claim demands 'D'. -/
theorem prober_retaliator_after_probe_counterexample :
    runMove (ProberRetaliatorO true) (fun _ => 'C') (fun m => if m = 0 then 'D' else 'C') 0 = 'D'
    ∧ (fun m : ℕ => if m = 0 then 'D' else 'C') 1 ≠ 'D'
    ∧ 2 + 1 ≤ MAX_MOVES
    ∧ runMove (ProberRetaliatorO true) (fun _ => 'C')
        (fun m => if m = 0 then 'D' else 'C') 2 = 'C' := by
  decide

/-- Witness for C8 (amended): both variants at round 1 against an opponent
whose round-0 move was 'D'. -/
theorem prober_retaliator_after_probe_witness :
    runMove (ProberRetaliatorG true) (fun _ => 'C') (fun m => if m = 0 then 'D' else 'C') 0 = 'D'
    ∧ runMove (ProberRetaliatorO true) (fun _ => 'C')
        (fun m => if m = 0 then 'D' else 'C') 0 = 'D'
    ∧ runMove (ProberRetaliatorG true) (fun _ => 'C') (fun m => if m = 0 then 'D' else 'C') (0+1)
        = (if (fun m : ℕ => if m = 0 then 'D' else 'C') 0 = 'D' then 'C' else 'D')
    ∧ runMove (ProberRetaliatorO true) (fun _ => 'C') (fun m => if m = 0 then 'D' else 'C') (0+1)
        = (if 'D' ∈ histAt (fun m => if m = 0 then 'D' else 'C') (0+1) then 'C' else 'D') :=
  prober_retaliator_after_probe (fun _ => 'C') (fun m => if m = 0 then 'D' else 'C') 0 (by decide)

/-! ## Contest-phase pairing (claim C9) -/

theorem contest_pairs_isSome (outcomes : ℕ → Int × Int) (individuals : List K) (N : ℕ)
    (hN : N % 2 = 0) (hind : individuals.length = N) :
    ∀ fuel payoffs i, payoffs.length = N → i % 2 = 0 → N ≤ i + 2*fuel →
    (contest_pairs outcomes individuals N payoffs i fuel).isSome = true := by
  intro fuel
  induction fuel with
  | zero =>
    intro payoffs i hp hi hle
    simp [contest_pairs]
  | succ fuel ih =>
    intro payoffs i hp hi hle
    by_cases hiN : i < N
    · have hi1 : i + 1 < N := by omega
      have g1 : individuals.get? i = some (individuals.get ⟨i, by omega⟩) :=
        List.get?_eq_get (by omega)
      have g2 : individuals.get? (i+1) = some (individuals.get ⟨i+1, by omega⟩) :=
        List.get?_eq_get (by omega)
      have g3 : payoffs.get? i = some (payoffs.get ⟨i, by omega⟩) :=
        List.get?_eq_get (by omega)
      have g4 : payoffs.get? (i+1) = some (payoffs.get ⟨i+1, by omega⟩) :=
        List.get?_eq_get (by omega)
      rw [contest_pairs, if_pos hiN, g1, g2, g3, g4]
      exact ih _ (i+2) (by simp [hp]) (by omega) (by omega)
    · rw [contest_pairs, if_neg hiN]
      rfl

theorem contest_pairs_none (outcomes : ℕ → Int × Int) (individuals : List K) (N : ℕ)
    (hN : N % 2 = 1) (hind : individuals.length = N) :
    ∀ fuel payoffs i, payoffs.length = N → i % 2 = 0 → i < N → N ≤ i + 2*fuel →
    contest_pairs outcomes individuals N payoffs i fuel = none := by
  intro fuel
  induction fuel with
  | zero =>
    intro payoffs i hp hi hiN hle
    omega
  | succ fuel ih =>
    intro payoffs i hp hi hiN hle
    by_cases hlast : i + 1 = N
    · have g2 : individuals.get? (i+1) = none := by
        rw [List.get?_eq_none]
        omega
      have g1 : individuals.get? i = some (individuals.get ⟨i, by omega⟩) :=
        List.get?_eq_get (by omega)
      rw [contest_pairs, if_pos hiN, g1, g2]
    · have hi1 : i + 1 < N := by omega
      have g1 : individuals.get? i = some (individuals.get ⟨i, by omega⟩) :=
        List.get?_eq_get (by omega)
      have g2 : individuals.get? (i+1) = some (individuals.get ⟨i+1, by omega⟩) :=
        List.get?_eq_get (by omega)
      have g3 : payoffs.get? i = some (payoffs.get ⟨i, by omega⟩) :=
        List.get?_eq_get (by omega)
      have g4 : payoffs.get? (i+1) = some (payoffs.get ⟨i+1, by omega⟩) :=
        List.get?_eq_get (by omega)
      rw [contest_pairs, if_pos hiN, g1, g2, g3, g4]
      exact ih _ (i+2) (by simp [hp]) (by omega) (by omega) (by omega)

/-- Claim C9 (amended): the pairing loop `for i in range(0, population_size, 2)`
has no fallback for a leftover individual.  With `individuals` of length
exactly `population_size`: for every even `population_size` all index
accesses are in bounds and the contest phase completes; for every odd
`population_size` the final iteration reads `individuals[i+1]` at index
`population_size`, which is out of bounds (Python raises `IndexError`,
embedded as `none`) — the claim's "still well-defined, applies a fallback"
is false for every odd size. -/
theorem contest_phase_pairing (outcomes : ℕ → Int × Int) (individuals : List K) (N : ℕ)
    (hind : individuals.length = N) :
    (N % 2 = 0 → (contest_phase outcomes individuals N).isSome = true)
    ∧ (N % 2 = 1 → contest_phase outcomes individuals N = none) := by
  constructor
  · intro hN
    exact contest_pairs_isSome outcomes individuals N hN hind N _ 0
      (by simp) (by omega) (by omega)
  · intro hN
    have hpos : 0 < N := by omega
    exact contest_pairs_none outcomes individuals N hN hind N _ 0
      (by simp) (by omega) hpos (by omega)

/-- Counterexample to C9 as stated: with the smallest odd population size 1,
the contest phase hits an out-of-bounds access and fails. -/
theorem contest_phase_pairing_counterexample :
    contest_phase (fun _ => ((0:Int), (0:Int))) [(0:ℕ)] 1 = none
    ∧ ([(0:ℕ)]).length = 1 := by
  decide

/-- Witness for C9 (amended): even size 2 completes, odd size 3 fails. -/
theorem contest_phase_pairing_witness :
    (contest_phase (fun _ => ((3:Int), (4:Int))) [(0:ℕ), 1] 2).isSome = true
    ∧ contest_phase (fun _ => ((3:Int), (4:Int))) [(5:ℕ), 6, 7] 3 = none :=
  ⟨(contest_phase_pairing (fun _ => ((3:Int), (4:Int))) [(0:ℕ), 1] 2 rfl).1 rfl,
   (contest_phase_pairing (fun _ => ((3:Int), (4:Int))) [(5:ℕ), 6, 7] 3 rfl).2 rfl⟩

/-! ## Frequency pipeline lemmas (claims C5, C6) -/

theorem fitness_of_pos (a : ℚ) : 0 < fitness_of a :=
  lt_of_lt_of_le (by norm_num) (le_max_right _ _)

theorem sum_map_div (l : List ℚ) (T : ℚ) : (l.map (fun x => x / T)).sum = l.sum / T := by
  induction l with
  | nil => simp
  | cons a l ih => simp [ih, add_div]

theorem total_fitness_pos (strategies : List K) (pay : K → Int) (cnt : K → ℕ)
    (hne : strategies ≠ []) :
    0 < total_fitness (new_population strategies pay cnt) := by
  have he : total_fitness (new_population strategies pay cnt)
      = (strategies.map (fun s => fitness_of (avg_pay pay cnt s))).sum := by
    simp [total_fitness, new_population, List.map_map, Function.comp_def]
  rw [he]
  apply List.sum_pos
  · intro a ha
    obtain ⟨s, _, rfl⟩ := List.mem_map.1 ha
    exact fitness_of_pos _
  · simpa using hne

theorem normalize_population_sum (np : List (K × ℚ)) (h : total_fitness np ≠ 0) :
    ((normalize_population np).map Prod.snd).sum = 1 := by
  have he : (normalize_population np).map Prod.snd
      = (np.map Prod.snd).map (fun x => x / total_fitness np) := by
    simp [normalize_population, List.map_map, Function.comp_def]
  rw [he, sum_map_div, total_fitness]
  exact div_self h

theorem normalize_population_fst (np : List (K × ℚ)) :
    (normalize_population np).map Prod.fst = np.map Prod.fst := by
  simp [normalize_population, List.map_map, Function.comp_def]

theorem new_population_fst (strategies : List K) (pay : K → Int) (cnt : K → ℕ) :
    (new_population strategies pay cnt).map Prod.fst = strategies := by
  simp [new_population, List.map_map, Function.comp_def]

theorem normalize_population_nonneg (np : List (K × ℚ)) (h : ∀ p ∈ np, 0 ≤ p.2)
    (hT : 0 ≤ total_fitness np) :
    ∀ p ∈ normalize_population np, 0 ≤ p.2 := by
  intro p hp
  obtain ⟨q, hq, rfl⟩ := List.mem_map.1 hp
  exact div_nonneg (h q hq) hT

theorem mutation_amount_nonneg (f : ℚ) (h : 0 ≤ f) : 0 ≤ mutation_amount f :=
  le_min (mul_nonneg h (by norm_num)) (by norm_num)

theorem mutation_amount_le (f : ℚ) (h : 0 ≤ f) : mutation_amount f ≤ f :=
  le_trans (min_le_left _ _) (by nlinarith)

theorem mutation_amount_pos (f : ℚ) (h : 0 < f) : 0 < mutation_amount f :=
  lt_min (by positivity) (by norm_num)

theorem mutation_amount_cap (f : ℚ) : mutation_amount f ≤ 5/100 := min_le_right _ _

theorem sum_set (l : List (K × ℚ)) (i : ℕ) (p q : K × ℚ) (h : l.get? i = some p) :
    ((l.set i q).map Prod.snd).sum = (l.map Prod.snd).sum - p.2 + q.2 := by
  induction l generalizing i with
  | nil => simp at h
  | cons a l ih =>
    cases i with
    | zero =>
      simp only [List.get?] at h
      injection h with h
      subst h
      simp [List.set]
      ring
    | succ i =>
      simp only [List.get?] at h
      show ((a :: l.set i q).map Prod.snd).sum = _
      simp only [List.map_cons, List.sum_cons, ih i h]
      ring

theorem set_map_fst (l : List (K × ℚ)) (i : ℕ) (p : K × ℚ) (x : ℚ) (h : l.get? i = some p) :
    (l.set i (p.1, x)).map Prod.fst = l.map Prod.fst := by
  induction l generalizing i with
  | nil => simp at h
  | cons a l ih =>
    cases i with
    | zero =>
      simp only [List.get?] at h
      injection h with h
      subst h
      simp [List.set]
    | succ i =>
      simp only [List.get?] at h
      simp [List.set, ih i h]

theorem bump_hawk_sum [DecidableEq K] (hawk : K) (amount : ℚ) (l : List (K × ℚ))
    (h : hawk ∈ l.map Prod.fst) :
    ((bump_hawk hawk amount l).map Prod.snd).sum = (l.map Prod.snd).sum + amount := by
  induction l with
  | nil => simp at h
  | cons a l ih =>
    by_cases ha : a.1 = hawk
    · simp [bump_hawk, ha]
      ring
    · have h' : hawk ∈ l.map Prod.fst := by
        rcases List.mem_map.1 h with ⟨q, hq, hq2⟩
        rcases List.mem_cons.1 hq with rfl | hq
        · exact absurd hq2 ha
        · exact List.mem_map.2 ⟨q, hq, hq2⟩
      simp [bump_hawk, ha, ih h']
      ring

theorem bump_hawk_nonneg [DecidableEq K] (hawk : K) (amount : ℚ) (l : List (K × ℚ))
    (h : ∀ p ∈ l, 0 ≤ p.2) (hamt : 0 ≤ amount) :
    ∀ p ∈ bump_hawk hawk amount l, 0 ≤ p.2 := by
  induction l with
  | nil => simp [bump_hawk]
  | cons a l ih =>
    intro p hp
    by_cases ha : a.1 = hawk
    · rw [bump_hawk, if_pos ha] at hp
      rcases List.mem_cons.1 hp with rfl | hp
      · exact add_nonneg (h a (by simp)) hamt
      · exact h p (by simp [hp])
    · rw [bump_hawk, if_neg ha] at hp
      rcases List.mem_cons.1 hp with rfl | hp
      · exact h p (by simp)
      · exact ih (fun q hq => h q (by simp [hq])) p hp

theorem bump_hawk_get_of_ne [DecidableEq K] (hawk : K) (amount : ℚ) (l : List (K × ℚ))
    (i : ℕ) (p : K × ℚ) (h : l.get? i = some p) (hne : p.1 ≠ hawk) :
    (bump_hawk hawk amount l).get? i = some p := by
  induction l generalizing i with
  | nil => simp at h
  | cons a l ih =>
    by_cases ha : a.1 = hawk
    · rw [bump_hawk, if_pos ha]
      cases i with
      | zero =>
        simp only [List.get?] at h
        injection h with h
        subst h
        exact absurd ha hne
      | succ i => simpa using h
    · rw [bump_hawk, if_neg ha]
      cases i with
      | zero => simpa using h
      | succ i =>
        simp only [List.get?] at h ⊢
        exact ih i h

theorem first_hawk_freq_bump [DecidableEq K] (hawk : K) (amount : ℚ) (l : List (K × ℚ))
    (h : hawk ∈ l.map Prod.fst) :
    first_hawk_freq hawk (bump_hawk hawk amount l) = first_hawk_freq hawk l + amount := by
  induction l with
  | nil => simp at h
  | cons a l ih =>
    by_cases ha : a.1 = hawk
    · rw [bump_hawk, if_pos ha]
      simp [first_hawk_freq, ha]
    · have h' : hawk ∈ l.map Prod.fst := by
        rcases List.mem_map.1 h with ⟨q, hq, hq2⟩
        rcases List.mem_cons.1 hq with rfl | hq
        · exact absurd hq2 ha
        · exact List.mem_map.2 ⟨q, hq, hq2⟩
      rw [bump_hawk, if_neg ha]
      simp [first_hawk_freq, ha, ih h']

theorem first_hawk_freq_set [DecidableEq K] (hawk : K) (l : List (K × ℚ)) (i : ℕ)
    (p : K × ℚ) (x : ℚ) (h : l.get? i = some p) (hne : p.1 ≠ hawk) :
    first_hawk_freq hawk (l.set i (p.1, x)) = first_hawk_freq hawk l := by
  induction l generalizing i with
  | nil => simp at h
  | cons a l ih =>
    cases i with
    | zero =>
      simp only [List.get?] at h
      injection h with h
      subst h
      simp [List.set, first_hawk_freq, hne]
    | succ i =>
      simp only [List.get?] at h
      simp [List.set, first_hawk_freq, ih i h]

theorem get?_set_some {α : Type} (l : List α) (i : ℕ) (a b : α) (h : l.get? i = some b) :
    (l.set i a).get? i = some a := by
  induction l generalizing i with
  | nil => simp at h
  | cons c l ih =>
    cases i with
    | zero => rfl
    | succ i =>
      simp only [List.get?] at h ⊢
      exact ih i h

theorem mutation_step_of_none [DecidableEq K] (hawk : K) (pop : List (K × ℚ)) (mi : ℕ)
    (hget : pop.get? mi = none) : mutation_step hawk pop mi = pop := by
  simp only [mutation_step, hget]

theorem mutation_step_of_hawk [DecidableEq K] (hawk : K) (pop : List (K × ℚ)) (mi : ℕ)
    (p : K × ℚ) (hget : pop.get? mi = some p) (hp : p.1 = hawk) :
    mutation_step hawk pop mi = pop := by
  simp only [mutation_step, hget]
  rw [if_pos hp]

theorem mutation_step_of_ne [DecidableEq K] (hawk : K) (pop : List (K × ℚ)) (mi : ℕ)
    (p : K × ℚ) (hget : pop.get? mi = some p) (hp : p.1 ≠ hawk) :
    mutation_step hawk pop mi
      = bump_hawk hawk (mutation_amount p.2) (pop.set mi (p.1, p.2 - mutation_amount p.2)) := by
  simp only [mutation_step, hget]
  rw [if_neg hp]

theorem mutation_step_sum [DecidableEq K] (hawk : K) (pop : List (K × ℚ)) (mi : ℕ)
    (h : hawk ∈ pop.map Prod.fst) :
    ((mutation_step hawk pop mi).map Prod.snd).sum = (pop.map Prod.snd).sum := by
  cases hget : pop.get? mi with
  | none => rw [mutation_step_of_none hawk pop mi hget]
  | some p =>
    by_cases hp : p.1 = hawk
    · rw [mutation_step_of_hawk hawk pop mi p hget hp]
    · have hfst : (pop.set mi (p.1, p.2 - mutation_amount p.2)).map Prod.fst = pop.map Prod.fst :=
        set_map_fst pop mi p _ hget
      rw [mutation_step_of_ne hawk pop mi p hget hp,
        bump_hawk_sum hawk _ _ (hfst.symm ▸ h), sum_set pop mi p _ hget]
      ring

theorem mutation_step_nonneg [DecidableEq K] (hawk : K) (pop : List (K × ℚ)) (mi : ℕ)
    (h : ∀ p ∈ pop, 0 ≤ p.2) :
    ∀ q ∈ mutation_step hawk pop mi, 0 ≤ q.2 := by
  cases hget : pop.get? mi with
  | none =>
    rw [mutation_step_of_none hawk pop mi hget]
    exact h
  | some p =>
    by_cases hp : p.1 = hawk
    · rw [mutation_step_of_hawk hawk pop mi p hget hp]
      exact h
    · have hp2 : 0 ≤ p.2 := h p (List.get?_mem hget)
      rw [mutation_step_of_ne hawk pop mi p hget hp]
      apply bump_hawk_nonneg
      · intro q hq
        rcases List.mem_or_eq_of_mem_set hq with hq | rfl
        · exact h q hq
        · exact sub_nonneg.2 (mutation_amount_le _ hp2)
      · exact mutation_amount_nonneg _ hp2

/-- Claim C5 (amended): for any generation of `evolutionary_simulation`, with
the input distribution non-negative and summing to 1 (paired entrywise with
the `strategies` roster), and for every outcome of the contest phase
(arbitrary `strat_payoffs`/`strat_counts`) and of the mutation draws,
the output distribution is non-negative with sum exactly 1 — *provided* the
`Hawk` kind belongs to the roster.  (Without that proviso the claim fails:
the mutation step subtracts frequency from the picked kind but the
`for i, (st, fr) in enumerate(population)` search then finds no Hawk entry
to credit, so the sum drops below 1; see the counterexample.) -/
theorem generation_update_distribution [DecidableEq K] (hawk : K) (strategies : List K)
    (init : List ℚ) (strat_payoffs : K → Int) (strat_counts : K → ℕ)
    (doMutate : Bool) (mut_index : ℕ)
    (hlen : init.length = strategies.length)
    (_hnn : ∀ f ∈ init, 0 ≤ f) (hsum : init.sum = 1)
    (hhawk : hawk ∈ strategies) :
    (∀ p ∈ generation_update hawk strategies strat_payoffs strat_counts doMutate mut_index,
        0 ≤ p.2)
    ∧ ((generation_update hawk strategies strat_payoffs strat_counts doMutate mut_index).map
        Prod.snd).sum = 1 := by
  have hne : strategies ≠ [] := by
    intro he
    rw [he, List.length_nil, List.length_eq_zero] at hlen
    rw [hlen] at hsum
    simp at hsum
  have hT : 0 < total_fitness (new_population strategies strat_payoffs strat_counts) :=
    total_fitness_pos strategies _ _ hne
  have hpop_nn : ∀ p ∈ normalize_population
      (new_population strategies strat_payoffs strat_counts), 0 ≤ p.2 := by
    apply normalize_population_nonneg
    · intro p hp
      obtain ⟨s, _, rfl⟩ := List.mem_map.1 hp
      exact le_of_lt (fitness_of_pos _)
    · exact le_of_lt hT
  have hpop_sum : ((normalize_population
      (new_population strategies strat_payoffs strat_counts)).map Prod.snd).sum = 1 :=
    normalize_population_sum _ (ne_of_gt hT)
  have hpop_fst : hawk ∈ (normalize_population
      (new_population strategies strat_payoffs strat_counts)).map Prod.fst := by
    rw [normalize_population_fst, new_population_fst]
    exact hhawk
  cases doMutate with
  | false => exact ⟨hpop_nn, hpop_sum⟩
  | true =>
    have hgen : generation_update hawk strategies strat_payoffs strat_counts true mut_index
        = mutation_step hawk
            (normalize_population (new_population strategies strat_payoffs strat_counts))
            mut_index := rfl
    rw [hgen]
    exact ⟨mutation_step_nonneg hawk _ mut_index hpop_nn,
      (mutation_step_sum hawk _ mut_index hpop_fst).trans hpop_sum⟩

/-- Counterexample to C5 as stated: roster `[1]` (no Hawk; the Hawk kind is
`0`), input distribution `[1]` — non-negative, sum 1.  With the mutation
triggered at index 0 the output distribution is `[19/20]`: sum `19/20 ≠ 1`. -/
theorem generation_update_distribution_counterexample :
    (∀ f ∈ [(1:ℚ)], 0 ≤ f) ∧ ([(1:ℚ)]).sum = 1
    ∧ ((generation_update (0:ℕ) [1] (fun _ => 0) (fun _ => 0) true 0).map Prod.snd).sum = 19/20
    ∧ (19/20 : ℚ) ≠ 1 := by
  have h : generation_update (0:ℕ) [1] (fun _ => 0) (fun _ => 0) true 0 = [(1, 19/20)] := by
    simp [generation_update, normalize_population, new_population, total_fitness, fitness_of,
      avg_pay, mutation_step, mutation_amount, bump_hawk, List.set]
    norm_num
  refine ⟨by norm_num, by norm_num, ?_, by norm_num⟩
  rw [h]
  norm_num

/-- Witness for C5 (amended): roster `[0, 1]` with Hawk `0` present,
uniform input distribution, mutation triggered at index 1. -/
theorem generation_update_distribution_witness :
    ((generation_update (0:ℕ) [0, 1] (fun _ => 0) (fun _ => 0) true 1).map Prod.snd).sum = 1 :=
  (generation_update_distribution (0:ℕ) [0, 1] [1/2, 1/2] (fun _ => 0) (fun _ => 0) true 1 rfl
    (by norm_num) (by norm_num) (by simp)).2

/-- Claim C6 (amended): the mutation draw `random.randrange(len(population))`
ranges over *all* kinds, Hawk's index included — not over "the distribution
excluding the sink kind" as claimed.  When the draw lands on Hawk the step
is the identity (so the picked kind's frequency does not strictly decrease;
see the counterexample).  When it lands on a kind `s ≠ Hawk` holding
frequency `f`, the step subtracts `mutation_amount f = min(f*0.1, 0.05)`
from `s`, adds the same amount to the first Hawk entry (provided Hawk
occurs in the list), the amount is bounded by the absolute cap `0.05`,
the changes are strict when `f > 0`, and no frequency becomes negative. -/
theorem mutation_pick_and_transfer [DecidableEq K] (hawk : K) (pop : List (K × ℚ))
    (mut_index : ℕ) (s : K) (f : ℚ)
    (hget : pop.get? mut_index = some (s, f)) (hnn : ∀ p ∈ pop, 0 ≤ p.2) :
    (s = hawk → mutation_step hawk pop mut_index = pop)
    ∧ (s ≠ hawk → hawk ∈ pop.map Prod.fst →
        (mutation_step hawk pop mut_index).get? mut_index = some (s, f - mutation_amount f)
        ∧ first_hawk_freq hawk (mutation_step hawk pop mut_index)
            = first_hawk_freq hawk pop + mutation_amount f
        ∧ mutation_amount f ≤ 5/100
        ∧ (0 < f → f - mutation_amount f < f
            ∧ first_hawk_freq hawk pop < first_hawk_freq hawk (mutation_step hawk pop mut_index))
        ∧ (∀ q ∈ mutation_step hawk pop mut_index, 0 ≤ q.2)) := by
  constructor
  · intro hsh
    exact mutation_step_of_hawk hawk pop mut_index (s, f) hget hsh
  · intro hs hmem
    have hstep := mutation_step_of_ne hawk pop mut_index (s, f) hget hs
    have hfst : (pop.set mut_index (s, f - mutation_amount f)).map Prod.fst
        = pop.map Prod.fst := set_map_fst pop mut_index (s, f) _ hget
    have hfhf : first_hawk_freq hawk (mutation_step hawk pop mut_index)
        = first_hawk_freq hawk pop + mutation_amount f := by
      rw [hstep, first_hawk_freq_bump hawk _ _ (hfst.symm ▸ hmem),
        first_hawk_freq_set hawk pop mut_index (s, f) _ hget hs]
    have hf0 : 0 ≤ f := by
      have := hnn (s, f) (List.get?_mem hget)
      simpa using this
    refine ⟨?_, hfhf, mutation_amount_cap f, ?_, mutation_step_nonneg hawk pop mut_index hnn⟩
    · rw [hstep]
      exact bump_hawk_get_of_ne hawk _ _ mut_index (s, f - mutation_amount f)
        (get?_set_some pop mut_index _ _ hget) hs
    · intro hf
      have hpos := mutation_amount_pos f hf
      constructor
      · linarith
      · rw [hfhf]
        linarith

/-- Counterexample to C6 as stated: the draw can land on Hawk's own index
(kind `0`, the sink) — the step then changes nothing, so the picked kind's
frequency does not strictly decrease and the pick was not "from the
distribution excluding the sink kind". -/
theorem mutation_pick_and_transfer_counterexample :
    ([((0:ℕ), (1:ℚ)/2), (1, 1/2)].get? 0 = some (0, 1/2))
    ∧ mutation_step (0:ℕ) [(0, 1/2), (1, 1/2)] 0 = [(0, 1/2), (1, 1/2)] := by
  constructor
  · rfl
  · simp [mutation_step, List.get?]

/-- Witness for C6 (amended): a non-Hawk pick at index 1 with frequency 1/2. -/
theorem mutation_pick_and_transfer_witness :
    (mutation_step (0:ℕ) [(0, 1/2), (1, 1/2)] 1).get? 1 = some (1, 1/2 - mutation_amount (1/2))
    ∧ first_hawk_freq 0 (mutation_step (0:ℕ) [(0, 1/2), (1, 1/2)] 1)
        = first_hawk_freq 0 [((0:ℕ), (1:ℚ)/2), (1, 1/2)] + mutation_amount (1/2)
    ∧ mutation_amount (1/2) ≤ 5/100
    ∧ (1/2 - mutation_amount (1/2) < (1:ℚ)/2)
    ∧ first_hawk_freq 0 [((0:ℕ), (1:ℚ)/2), (1, 1/2)]
        < first_hawk_freq 0 (mutation_step (0:ℕ) [(0, 1/2), (1, 1/2)] 1) := by
  obtain ⟨h1, h2, h3, h4, h5⟩ :=
    (mutation_pick_and_transfer (0:ℕ) [(0, 1/2), (1, 1/2)] 1 1 (1/2) rfl
      (by intro p hp; simp at hp; rcases hp with rfl | rfl <;> norm_num)).2
      (by norm_num) (by simp)
  exact ⟨h1, h2, h3, (h4 (by norm_num)).1, (h4 (by norm_num)).2⟩

/-! ## Sampling phase (claim C7) -/

theorem fill_loop_of_ge [Inhabited K] (strategies : List K) (ws : List ℚ) (us : ℕ → ℚ)
    (N : ℕ) (inds : List K) (j fuel : ℕ) (h : N ≤ inds.length) :
    fill_loop strategies ws us N inds j fuel = inds := by
  cases fuel with
  | zero => rfl
  | succ fuel => rw [fill_loop, if_neg (not_lt.2 h)]

theorem fill_loop_spec [Inhabited K] (strategies : List K) (ws : List ℚ) (us : ℕ → ℚ)
    (N : ℕ) : ∀ fuel (inds : List K) (j : ℕ), N ≤ inds.length + fuel →
    fill_loop strategies ws us N inds j fuel
      = inds ++ (List.range (N - inds.length)).map
          (fun t => choices_one strategies ws (us (j + t))) := by
  intro fuel
  induction fuel with
  | zero =>
    intro inds j h
    have h0 : N - inds.length = 0 := by omega
    simp [h0, fill_loop]
  | succ fuel ih =>
    intro inds j h
    by_cases hlt : inds.length < N
    · rw [fill_loop, if_pos hlt, ih _ (j+1) (by simp; omega)]
      have hd : N - inds.length = (N - (inds.length + 1)) + 1 := by omega
      rw [List.length_append, List.length_singleton, hd, List.range_succ_eq_map,
        List.map_cons, List.map_map, List.append_assoc, List.singleton_append]
      have htail : List.map (fun t => choices_one strategies ws (us (j + 1 + t)))
            (List.range (N - (inds.length + 1)))
          = List.map ((fun t => choices_one strategies ws (us (j + t))) ∘ Nat.succ)
            (List.range (N - (inds.length + 1))) :=
        List.map_congr_left (fun t _ => by
          show choices_one strategies ws (us (j + 1 + t))
            = choices_one strategies ws (us (j + Nat.succ t))
          rw [show j + 1 + t = j + Nat.succ t by omega])
      rw [htail]
      simp
    · rw [fill_loop, if_neg hlt]
      have h0 : N - inds.length = 0 := by omega
      simp [h0]

theorem trim_loop_take (N : ℕ) : ∀ (fuel : ℕ) (inds : List K), inds.length ≤ N + fuel →
    trim_loop N inds fuel = inds.take N := by
  intro fuel
  induction fuel with
  | zero =>
    intro inds h
    show inds = inds.take N
    exact (List.take_of_length_le (by omega)).symm
  | succ fuel ih =>
    intro inds h
    by_cases hlt : N < inds.length
    · rw [trim_loop, if_pos hlt, ih _ (by simp [List.length_dropLast]; omega)]
      rw [List.dropLast_eq_take, List.take_take]
      congr 1
      omega
    · rw [trim_loop, if_neg hlt]
      exact (List.take_of_length_le (by omega)).symm

theorem sample_eq_take [Inhabited K] (strategies : List K) (population : List (K × ℚ))
    (us : ℕ → ℚ) (N : ℕ) :
    sample_individuals strategies population us N
      = (fill_loop strategies (population.map Prod.snd) us N
          (base_individuals population N) 0 N).take N :=
  trim_loop_take N _ _ (Nat.le_add_left _ _)

theorem pickIndex_window : ∀ (ws : List ℚ) (u : ℚ) (i : ℕ), (∀ w ∈ ws, 0 ≤ w) → 0 ≤ u →
    ((pickIndex ws u = i ∧ i < ws.length) ↔
      ((ws.take i).sum ≤ u ∧ u < (ws.take (i+1)).sum)) := by
  intro ws
  induction ws with
  | nil =>
    intro u i h hu
    constructor
    · rintro ⟨-, hi⟩
      exact absurd hi (Nat.not_lt_zero i)
    · rintro ⟨-, hlt⟩
      simp at hlt
      exact absurd (lt_of_le_of_lt hu hlt) (lt_irrefl 0)
  | cons w ws ih =>
    intro u i h hu
    have hw : 0 ≤ w := h w (by simp)
    have htake : ∀ m, 0 ≤ (ws.take m).sum := fun m =>
      List.sum_nonneg (fun x hx => h x (by simp [List.take_subset _ _ hx]))
    by_cases hc : u < w
    · rw [pickIndex, if_pos hc]
      cases i with
      | zero =>
        constructor
        · rintro ⟨-, -⟩
          refine ⟨by simpa using hu, ?_⟩
          rw [List.take_succ_cons, List.take_zero, List.sum_cons, List.sum_nil, add_zero]
          exact hc
        · rintro ⟨-, -⟩
          exact ⟨rfl, Nat.succ_pos _⟩
      | succ i =>
        constructor
        · rintro ⟨h0, -⟩
          exact absurd h0 (by omega)
        · rintro ⟨hge, -⟩
          rw [List.take_succ_cons, List.sum_cons] at hge
          exact absurd hge (not_le.2 (by linarith [htake i]))
    · rw [pickIndex, if_neg hc]
      have hwu : w ≤ u := le_of_not_lt hc
      cases i with
      | zero =>
        constructor
        · rintro ⟨h0, -⟩
          exact absurd h0 (by omega)
        · rintro ⟨-, hlt⟩
          rw [List.take_succ_cons, List.take_zero, List.sum_cons, List.sum_nil, add_zero] at hlt
          exact absurd hlt (not_lt.2 hwu)
      | succ i =>
        have ih' := ih (u - w) i (fun x hx => h x (by simp [hx])) (by linarith)
        rw [List.take_succ_cons, List.take_succ_cons, List.sum_cons, List.sum_cons]
        constructor
        · rintro ⟨heq, hlen⟩
          have hlhs : pickIndex ws (u - w) = i ∧ i < ws.length := ⟨by omega, by simpa using hlen⟩
          obtain ⟨a, b⟩ := ih'.1 hlhs
          exact ⟨by linarith, by linarith⟩
        · rintro ⟨hge, hlt⟩
          obtain ⟨a, b⟩ := ih'.2 ⟨by linarith, by linarith⟩
          exact ⟨by omega, by simpa using Nat.succ_lt_succ b⟩

/-- Claim C7: the sampling phase produces exactly `population_size`
individuals.  It first lays down `int(freq * population_size)` copies of
each kind (truncated toward zero); a rounding shortfall is filled by
repeated `random.choices(strategies, weights=frequencies)` draws — shown
to select kind `i` exactly when the uniform draw `u` lands in the window
`[cum(i), cum(i)+freq(i))` of width `freq(i)`, i.e. with probability
proportional to the current frequencies, not uniformly — and any surplus
is trimmed from the end back down to `population_size`. -/
theorem sampling_phase_spec [Inhabited K] (strategies : List K) (population : List (K × ℚ))
    (us : ℕ → ℚ) (population_size : ℕ) :
    (sample_individuals strategies population us population_size).length = population_size
    ∧ ((base_individuals population population_size).length ≤ population_size →
        sample_individuals strategies population us population_size
          = base_individuals population population_size
            ++ (List.range (population_size
                  - (base_individuals population population_size).length)).map
                (fun t => choices_one strategies (population.map Prod.snd) (us t)))
    ∧ (population_size ≤ (base_individuals population population_size).length →
        sample_individuals strategies population us population_size
          = (base_individuals population population_size).take population_size)
    ∧ (∀ (ws : List ℚ) (u : ℚ) (i : ℕ), (∀ w ∈ ws, 0 ≤ w) → 0 ≤ u →
        ((pickIndex ws u = i ∧ i < ws.length) ↔
          ((ws.take i).sum ≤ u ∧ u < (ws.take (i+1)).sum))) := by
  have hshort : (base_individuals population population_size).length ≤ population_size →
      sample_individuals strategies population us population_size
        = base_individuals population population_size
          ++ (List.range (population_size
                - (base_individuals population population_size).length)).map
              (fun t => choices_one strategies (population.map Prod.snd) (us t)) := by
    intro hb
    have hfill := fill_loop_spec strategies (population.map Prod.snd) us population_size
      population_size (base_individuals population population_size) 0 (by omega)
    have hlenf : (fill_loop strategies (population.map Prod.snd) us population_size
        (base_individuals population population_size) 0 population_size).length
        = population_size := by
      rw [hfill]
      simp [List.length_append, List.length_map, List.length_range]
      omega
    rw [sample_eq_take, List.take_of_length_le (by omega), hfill]
    simp only [Nat.zero_add]
  have hlong : population_size ≤ (base_individuals population population_size).length →
      sample_individuals strategies population us population_size
        = (base_individuals population population_size).take population_size := by
    intro hb
    rw [sample_eq_take, fill_loop_of_ge strategies _ us population_size _ 0 population_size hb]
  refine ⟨?_, hshort, hlong, fun ws u i hws hu => pickIndex_window ws u i hws hu⟩
  by_cases hb : (base_individuals population population_size).length ≤ population_size
  · rw [hshort hb]
    simp [List.length_append, List.length_map, List.length_range]
    omega
  · rw [hlong (by omega)]
    simp [List.length_take]
    omega

/-- Witness for C7: roster `[0, 1]`, frequencies `(1/2, 1/4)`, population
size 4: the base holds `2 + 1` individuals and one weighted draw fills the
shortfall; plus a concrete selection-window instance. -/
theorem sampling_phase_spec_witness :
    (sample_individuals [(0:ℕ), 1] [(0, 1/2), (1, 1/4)] (fun _ => 3/4) 4).length = 4
    ∧ sample_individuals [(0:ℕ), 1] [(0, 1/2), (1, 1/4)] (fun _ => 3/4) 4
        = base_individuals [((0:ℕ), (1:ℚ)/2), (1, 1/4)] 4
          ++ (List.range (4 - (base_individuals [((0:ℕ), (1:ℚ)/2), (1, 1/4)] 4).length)).map
              (fun t => choices_one [(0:ℕ), 1]
                ([((0:ℕ), (1:ℚ)/2), (1, 1/4)].map Prod.snd) ((fun _ : ℕ => (3:ℚ)/4) t))
    ∧ ((pickIndex [(1:ℚ)/2, 1/4] (3/5) = 1 ∧ 1 < ([(1:ℚ)/2, 1/4]).length) ↔
        (([(1:ℚ)/2, 1/4].take 1).sum ≤ 3/5 ∧ (3/5:ℚ) < ([(1:ℚ)/2, 1/4].take 2).sum)) :=
  ⟨(sampling_phase_spec [(0:ℕ), 1] [(0, 1/2), (1, 1/4)] (fun _ => 3/4) 4).1,
   (sampling_phase_spec [(0:ℕ), 1] [(0, 1/2), (1, 1/4)] (fun _ => 3/4) 4).2.1
     (by norm_num [base_individuals, pyInt, Rat.floor]; decide),
   (sampling_phase_spec [(0:ℕ), 1] [(0, 1/2), (1, 1/4)] (fun _ => 3/4) 4).2.2.2
     [(1:ℚ)/2, 1/4] (3/5) 1 (by norm_num) (by norm_num)⟩


end AttritionSim
